import Mathlib

/-
Verification of the VoiceTT-RN transcription service core
(src/transcribe_service.py) against its design specification.

The development shallowly embeds the parts of the program that the
design's testable properties talk about:
  * `_sanitize_utf8_text` and the UTF-8 round trip it performs,
  * the streaming-fragment aggregation and final-text selection of
    `process_combined_audio`,
  * the voice-activity segmentation state machine of `audio_callback`
    together with the split harvesting of `record_audio`,
  * `stop_recording` / `save_audio_file` / `process_segment_chunks`,
  * the translation pipeline: `queue_translation`,
    `restart_translation_worker`, and the ordered-release loop of
    `translation_worker` with `perform_translation_task`,
  * the per-segment transcription threads spawned by `record_audio`
    and the emission of placeholder / final `transcription_update`
    events by `process_combined_audio`.

Python strings are modelled as lists of Unicode code points (`List Nat`),
machine reals that only ever feed threshold comparisons as rationals,
and the concurrent parts as explicit interleaving semantics over small
step functions.
-/

namespace VoiceTT

/-! ## Python strings and `_sanitize_utf8_text`

`_sanitize_utf8_text` (transcribe_service.py:273-279) does
`text.encode('utf-8', 'ignore').decode('utf-8', 'ignore')` for `str`
inputs and returns `''` for everything else.  We model a Python `str`
as its list of code points (CPython strings may contain lone
surrogates) and implement the UTF-8 encoder with the `ignore` error
handler (unencodable code units dropped) plus a UTF-8 decoder.  The
`except` fallback in the source is dead for these codecs (neither
raises under `ignore`), so the embedding is the round trip itself. -/

/-- A surrogate code unit U+D800..U+DFFF, which `encode('utf-8')` rejects. -/
def isSurrogate (c : Nat) : Bool := decide (0xD800 ≤ c) && decide (c ≤ 0xDFFF)

/-- A UTF-8 continuation byte 0x80..0xBF. -/
def isCont (b : Nat) : Bool := decide (0x80 ≤ b) && decide (b < 0xC0)

/-- Payload bits of a continuation byte. -/
def contVal (b : Nat) : Nat := b - 0x80

/-- UTF-8 encoding of one code point under `errors='ignore'`:
surrogates and out-of-range values contribute no bytes. -/
def utf8EncodeChar (c : Nat) : List Nat :=
  if c < 0x80 then [c]
  else if c < 0x800 then [0xC0 + c / 64, 0x80 + c % 64]
  else if isSurrogate c then []
  else if c < 0x10000 then
    [0xE0 + c / 4096, 0x80 + (c / 64) % 64, 0x80 + c % 64]
  else if c < 0x110000 then
    [0xF0 + c / 262144, 0x80 + (c / 4096) % 64, 0x80 + (c / 64) % 64, 0x80 + c % 64]
  else []

/-- `str.encode('utf-8', 'ignore')`: bytes of all code points. -/
def utf8Encode (s : List Nat) : List Nat := (s.map utf8EncodeChar).flatten

/-- Try to read one UTF-8 scalar from the head of a byte list; returns the
scalar and the remaining bytes.  Rejects overlong forms, surrogates and
values above U+10FFFF, like CPython's strict table-driven decoder. -/
def readUtf8 : List Nat → Option (Nat × List Nat)
  | [] => Option.none
  | b :: bs =>
    if b < 0x80 then some (b, bs)
    else if b < 0xC2 then Option.none
    else if b < 0xE0 then
      match bs with
      | b1 :: bs1 =>
        if isCont b1 then some ((b - 0xC0) * 64 + contVal b1, bs1) else Option.none
      | [] => Option.none
    else if b < 0xF0 then
      match bs with
      | b1 :: b2 :: bs2 =>
        if isCont b1 && isCont b2 then
          let c := (b - 0xE0) * 4096 + contVal b1 * 64 + contVal b2
          if 0x800 ≤ c && !(isSurrogate c) then some (c, bs2) else Option.none
        else Option.none
      | _ => Option.none
    else if b < 0xF5 then
      match bs with
      | b1 :: b2 :: b3 :: bs3 =>
        if isCont b1 && isCont b2 && isCont b3 then
          let c := (b - 0xF0) * 262144 + contVal b1 * 4096 + contVal b2 * 64 + contVal b3
          if 0x10000 ≤ c && c < 0x110000 then some (c, bs3) else Option.none
        else Option.none
      | _ => Option.none
    else Option.none

/-- Fuel-driven decoding loop; `fuel` bounds the number of bytes still to
be examined, so structural recursion suffices and the kernel can evaluate
it on concrete inputs. -/
def utf8DecodeAux : Nat → List Nat → List Nat
  | 0, _ => []
  | fuel + 1, l =>
    match readUtf8 l with
    | some (c, rest) => c :: utf8DecodeAux fuel rest
    | Option.none =>
      match l with
      | [] => []
      | _ :: bs => utf8DecodeAux fuel bs

/-- `bytes.decode('utf-8', 'ignore')`: decode scalars, dropping bytes that
do not start a valid sequence.  Only ever applied to `utf8Encode` output in
the source, where every sequence is valid. -/
def utf8Decode (l : List Nat) : List Nat := utf8DecodeAux l.length l


/-- A Python value as seen by `_sanitize_utf8_text`: a `str` (its code
points), `None`, or any other non-`str` object. -/
inductive PyVal where
  | str (s : List Nat)
  | pyNone
  | other
deriving Repr, DecidableEq

/-- `_sanitize_utf8_text` (transcribe_service.py:273-279): non-`str`
values map to `''`; `str` values are passed through
`encode('utf-8','ignore').decode('utf-8','ignore')`. -/
def sanitize_utf8_text (v : PyVal) : List Nat :=
  match v with
  | .str s => utf8Decode (utf8Encode s)
  | _ => []

/-! ## Streaming fragment aggregation and final-text selection

`process_combined_audio` (transcribe_service.py:1410-1603) accumulates
sanitized transcription fragments in `collected_transcription` via
`emit_transcription_delta` (lines 1456-1475, which skips fragments that
sanitize to `''`), then selects the released final text (lines
1511-1516): the adapter's stripped returned text when it is a non-blank
`str`, else the sanitized concatenation of the fragments, else nothing
(the `final_transcription` variable stays `None` / empty and no final
event is emitted). -/

/-- Unicode whitespace stripped by Python's `str.strip()`. -/
def isPySpace (c : Nat) : Bool :=
  decide (9 ≤ c ∧ c ≤ 13) || decide (28 ≤ c ∧ c ≤ 31) || decide (c = 32) ||
  decide (c = 0x85) || decide (c = 0xA0) || decide (c = 0x1680) ||
  decide (0x2000 ≤ c ∧ c ≤ 0x200A) || decide (c = 0x2028) || decide (c = 0x2029) ||
  decide (c = 0x202F) || decide (c = 0x205F) || decide (c = 0x3000)

/-- Python `str.strip()`: drop leading and trailing whitespace. -/
def pyStrip (s : List Nat) : List Nat :=
  ((s.dropWhile isPySpace).reverse.dropWhile isPySpace).reverse

/-- `collected_transcription` after all streaming callbacks: each delta is
sanitized and appended unless it sanitizes away (emit_transcription_delta
lines 1456-1460). -/
def collect_deltas (ds : List PyVal) : List (List Nat) :=
  ds.foldl
    (fun acc d =>
      let s := sanitize_utf8_text d
      if s = [] then acc else acc ++ [s])
    []

/-- The `aggregated` local of `process_combined_audio` (line 1511). -/
def aggregated_text (ds : List PyVal) : List Nat :=
  let collected := collect_deltas ds
  if collected = [] then [] else sanitize_utf8_text (.str collected.flatten)

/-- The `final_transcription` local (lines 1512-1516): the adapter's
stripped returned text when non-blank, else the fragment aggregate when
non-empty, else `None`. -/
def final_transcription (ds : List PyVal) (returned : PyVal) : Option (List Nat) :=
  let aggregated := aggregated_text ds
  match returned with
  | .str t =>
    if pyStrip t ≠ [] then some (sanitize_utf8_text (.str (pyStrip t)))
    else if aggregated ≠ [] then some aggregated else Option.none
  | _ => if aggregated ≠ [] then some aggregated else Option.none

/-- Text carried by the released final `transcription_update`: emitted only
when `final_transcription` is truthy (line 1518). -/
def released_final_text (ds : List PyVal) (returned : PyVal) : Option (List Nat) :=
  match final_transcription ds returned with
  | some s => if s = [] then Option.none else some s
  | Option.none => Option.none

/-! ## Voice-activity segmentation

`audio_callback` (transcribe_service.py:1091-1201) classifies each
incoming block by its RMS against `SILENCE_RMS_THRESHOLD`, maintains the
pre-roll buffer while idle, starts a segment on voice onset (merging the
pre-roll into `audio_data`), and requests a split once the contiguous
silence inside a segment reaches `MIN_SILENCE_SEC_FOR_SPLIT` seconds.
`record_audio` (lines 1277-1333) harvests `audio_data` into a finalized
segment whenever `split_requested` is set.

A callback block is modelled as its frame count plus its RMS value (a
rational; the block's float RMS feeds only the threshold comparisons, so
the comparison operand is taken as the input).  Purely reporting side
effects (volume messages, `voice_activity` notifications, logging) are
elided, as is `simple_recording_mode`.  Harvesting is modelled as
happening right after the callback that set `split_requested`; the real
poll loop may run a few blocks later, but until the next voice onset the
harvested `audio_data` is unchanged, which covers the silent-tail
scenarios the claims quantify over. -/

/-- Fixed configuration (transcribe_service.py:194-202). -/
def SAMPLE_RATE : Nat := 44100

/-- `MIN_SILENCE_SEC_FOR_SPLIT = 1.0`. -/
def MIN_SILENCE_SEC_FOR_SPLIT : ℚ := mkRat 1 1

/-- `SILENCE_RMS_THRESHOLD = 0.010`. -/
def SILENCE_RMS_THRESHOLD : ℚ := mkRat 1 100

/-- `PRE_ROLL_SECONDS = 1.0`. -/
def PRE_ROLL_SECONDS : ℚ := mkRat 1 1

/-- `int(q * n)` for a nonnegative rational `q` and natural `n`, written
without `Rat.mul` so the kernel can evaluate it: truncation of
`q.num * n / q.den`. -/
def pyIntTimes (q : ℚ) (n : Nat) : Nat := q.num.toNat * n / q.den

/-- `int(PRE_ROLL_SECONDS * SAMPLE_RATE)` (line 1146). -/
def maxPre : Nat := pyIntTimes PRE_ROLL_SECONDS SAMPLE_RATE

/-- `int(MIN_SILENCE_SEC_FOR_SPLIT * SAMPLE_RATE)` (line 1185). -/
def splitFrames : Nat := pyIntTimes MIN_SILENCE_SEC_FOR_SPLIT SAMPLE_RATE

/-- One `indata` block delivered to `audio_callback`: its frame count and
its RMS energy. -/
structure Chunk where
  len : Nat
  rms : ℚ
deriving Repr, DecidableEq

/-- Total frame count of a chunk list. -/
def sumLen (cs : List Chunk) : Nat := (cs.map Chunk.len).sum

/-- The segmentation globals of transcribe_service.py:252-260. -/
structure VadState where
  audio_data : List Chunk
  segment_frames : Nat
  silence_frames_contig : Nat
  split_requested : Bool
  segment_active : Bool
  new_segment_requested : Bool
  pre_roll_chunks : List Chunk
  pre_roll_frames : Nat
deriving Repr, DecidableEq

/-- The trimming loop of lines 1147-1149: drop chunks from the front
while the pre-roll holds more than `maxPre` frames. -/
def trimPreRoll (chunks : List Chunk) (total : Nat) : List Chunk × Nat :=
  match chunks with
  | [] => ([], total)
  | c :: rest =>
    if total > maxPre then trimPreRoll rest (total - c.len) else (c :: rest, total)

/-- `audio_callback` (lines 1104-1197), with recording on and
`simple_recording_mode` off. -/
def audio_callback (st : VadState) (c : Chunk) : VadState :=
  if c.len = 0 then st
  else
    let st1 :=
      if st.segment_active = false then
        let t := trimPreRoll (st.pre_roll_chunks ++ [c]) (st.pre_roll_frames + c.len)
        { st with pre_roll_chunks := t.1, pre_roll_frames := t.2 }
      else st
    let st2 :=
      if st1.segment_active = false ∧ SILENCE_RMS_THRESHOLD ≤ c.rms then
        { st1 with
          new_segment_requested := true
          segment_active := true
          audio_data := st1.audio_data ++ st1.pre_roll_chunks
          segment_frames := sumLen st1.pre_roll_chunks
          silence_frames_contig := 0
          pre_roll_chunks := []
          pre_roll_frames := 0 }
      else st1
    if st2.segment_active then
      let st3 := { st2 with
        audio_data := st2.audio_data ++ [c]
        segment_frames := st2.segment_frames + c.len }
      if c.rms < SILENCE_RMS_THRESHOLD then
        let st4 := { st3 with silence_frames_contig := st3.silence_frames_contig + c.len }
        if splitFrames ≤ st4.silence_frames_contig then
          { st4 with split_requested := true, segment_active := false }
        else st4
      else { st3 with silence_frames_contig := 0 }
    else st2

/-- A recording session: the segmentation globals plus the segments
already harvested by `record_audio` and `segment_index`. -/
structure RecState where
  vad : VadState
  segments : List (List Chunk)
  segment_index : Nat
deriving Repr, DecidableEq

/-- The split handling of `record_audio` (lines 1295-1312): swap out
`audio_data` as a finalized segment and reset the per-segment state. -/
def harvest_split (st : RecState) : RecState :=
  if st.vad.split_requested then
    { vad := { st.vad with
        audio_data := []
        segment_frames := 0
        silence_frames_contig := 0
        split_requested := false
        new_segment_requested := false }
      segments := st.segments ++ [st.vad.audio_data]
      segment_index := st.segment_index + 1 }
  else { st with vad := { st.vad with new_segment_requested := false } }

/-- Deliver one callback block, then let the record loop harvest any
requested split. -/
def feedChunk (st : RecState) (c : Chunk) : RecState :=
  harvest_split { st with vad := audio_callback st.vad c }

/-- Deliver a whole block sequence. -/
def feed (st : RecState) (cs : List Chunk) : RecState := cs.foldl feedChunk st

/-- Globals right after `start_recording` (lines 1258-1270). -/
def initVad : VadState :=
  { audio_data := []
    segment_frames := 0
    silence_frames_contig := 0
    split_requested := false
    segment_active := false
    new_segment_requested := false
    pre_roll_chunks := []
    pre_roll_frames := 0 }

/-- Session state right after `start_recording`. -/
def initRec : RecState := { vad := initVad, segments := [], segment_index := 1 }

/-- `process_segment_chunks` (lines 1366-1371) restricted to segment
formation: an empty chunk list yields no segment, otherwise the chunks
form one combined segment. -/
def process_segment_chunks (chunks : List Chunk) : Option (List Chunk) :=
  if chunks = [] then Option.none else some chunks

/-- `save_audio_file` (lines 1358-1364): swap out `audio_data` and hand it
to `process_segment_chunks`. -/
def save_audio_file (st : RecState) : Option (List Chunk) :=
  process_segment_chunks st.vad.audio_data

/-- The final-segment flush of `stop_recording` (lines 1335-1356):
`save_audio_file` runs only when `audio_data` is non-empty. -/
def stop_recording_segment (st : RecState) : Option (List Chunk) :=
  if st.vad.audio_data = [] then Option.none else save_audio_file st

/-- C4 scenario blocks: 0.1-second blocks (4410 frames), silent blocks
with zero RMS. -/
def silentChunk : Chunk := { len := 4410, rms := 0 }

/-- C4 scenario tone blocks: RMS 0.1, well above the 0.010 threshold. -/
def toneChunk : Chunk := { len := 4410, rms := mkRat 1 10 }

/-- The synthetic input of property P4: 2 s silence, 3 s tone, 1.5 s
silence, in 0.1-second blocks. -/
def c4Input : List Chunk :=
  List.replicate 20 silentChunk ++ List.replicate 30 toneChunk ++
    List.replicate 15 silentChunk

/-! ## Translation pipeline

`queue_translation` (transcribe_service.py:1068-1089) assigns each valid
task the next value of `translation_counter` and puts `(order, task)`
into the unbounded `PriorityQueue` (so the `queue.Full` branch is dead).
`restart_translation_worker` (lines 861-882) drains the queue and
realigns `translation_next_expected` to `translation_counter + 1`.
`translation_worker` (lines 884-1066) repeatedly dequeues the
minimum-order task; a task whose order is not the expected one is put
back untouched, the expected one is processed inline by
`perform_translation_task` (lines 895-974) after which the queue is
rescanned for now-ready successors.

The `PriorityQueue` is modelled as the multiset of queued tasks (a list
whose dequeue takes a task of minimal order); the put-back branch
therefore leaves the model state unchanged.  The external
`_translate_text_dispatch` call is an oracle per order: the streamed
delta texts plus either a returned text or `none` (call raised or
returned `None`).  Shutdown (`task is None` stop signals) and the
logging side effects are elided: the model covers a running worker. -/

/-- One queued translation task:
`(order, result_id, transcription, target_language, context)`. -/
structure Task where
  order : Nat
  rid : Nat
  text : List Nat
  lang : List Nat
deriving Repr, DecidableEq

/-- `translation_counter`, `translation_next_expected` and the queue
contents (transcribe_service.py:263-267). -/
structure TransPipe where
  counter : Nat
  next_expected : Nat
  queue : List Task
deriving Repr, DecidableEq

/-- `queue_translation` (lines 1068-1089): falsy or blank target language
is rejected with `(False, 0)` and no state change; otherwise the task
gets order `translation_counter + 1` and is enqueued. -/
def queue_translation (st : TransPipe) (rid : Nat) (text : List Nat)
    (lang : Option (List Nat)) : TransPipe × Bool × Nat :=
  match lang with
  | Option.none => (st, false, 0)
  | some l =>
    if l = [] ∨ pyStrip l = [] then (st, false, 0)
    else
      let order := st.counter + 1
      ({ st with
          counter := order
          queue := st.queue ++ [{ order := order, rid := rid, text := text, lang := l }] },
        true, order)

/-- `restart_translation_worker` (lines 861-882): clear the queue and set
`translation_next_expected = translation_counter + 1`. -/
def restart_translation_worker (st : TransPipe) : TransPipe :=
  { st with queue := [], next_expected := st.counter + 1 }

/-- The worker's initial local cursor (line 890): the stored
`translation_next_expected` when positive, else 1. -/
def worker_init_expected (st : TransPipe) : Nat :=
  if 0 < st.next_expected then st.next_expected else 1

/-- `translation_update` events sent by `perform_translation_task`:
the initial pending payload, a streaming payload per non-empty sanitized
delta, and a terminal payload — `final` (`translation_pending: false`,
`is_final: true`) or `failed` (`translation_pending: false`,
`error: "translation_failed"`). -/
inductive TEvent where
  | pending (order : Nat)
  | streaming (order : Nat) (combined delta : List Nat)
  | final (order : Nat) (text : List Nat)
  | failed (order : Nat) (text : List Nat)
deriving Repr, DecidableEq

/-- Outcome of one `_translate_text_dispatch` call: the delta texts the
engine streams, and `some t` for a returned text `t` or `none` when the
call raises or returns `None`. -/
structure CallBeh where
  deltas : List PyVal
  result : Option (List Nat)
deriving Repr, DecidableEq

/-- The `on_delta` loop (lines 916-933): grow `collected_parts` with each
non-empty sanitized delta and emit a streaming event with the running
concatenation. -/
def stream_fold (order : Nat) (acc : List (List Nat)) :
    List PyVal → List (List Nat) × List TEvent
  | [] => (acc, [])
  | d :: ds =>
    let s := sanitize_utf8_text d
    if s = [] then stream_fold order acc ds
    else
      let acc2 := acc ++ [s]
      let ev := TEvent.streaming order (sanitize_utf8_text (.str acc2.flatten)) s
      let r := stream_fold order acc2 ds
      (r.1, ev :: r.2)

/-- The failure payload of lines 962-973: the sanitized concatenation of
the collected parts when any were streamed, else the empty string. -/
def failText (collected : List (List Nat)) : List Nat :=
  if collected = [] then [] else sanitize_utf8_text (.str collected.flatten)

/-- `perform_translation_task` (lines 895-974): empty inputs return
`(False, ...)` without emitting; otherwise the pending payload, the
streaming payloads, and a terminal payload are emitted — a truthy
returned text yields a `final` event with the sanitized stripped text,
anything else a `failed` event carrying the collected parts. -/
def perform_translation_task (order : Nat) (text lang : List Nat) (beh : CallBeh) :
    Bool × List TEvent :=
  if text = [] ∨ lang = [] then (false, [])
  else
    match beh.result with
    | some t =>
      if t ≠ [] then
        (true, TEvent.pending order :: (stream_fold order [] beh.deltas).2 ++
          [TEvent.final order (sanitize_utf8_text (.str (pyStrip t)))])
      else
        (false, TEvent.pending order :: (stream_fold order [] beh.deltas).2 ++
          [TEvent.failed order (failText (stream_fold order [] beh.deltas).1)])
    | Option.none =>
      (false, TEvent.pending order :: (stream_fold order [] beh.deltas).2 ++
        [TEvent.failed order (failText (stream_fold order [] beh.deltas).1)])

/-- A task of minimal order — what `PriorityQueue.get` returns. -/
def qMin : List Task → Option Task
  | [] => Option.none
  | t :: ts =>
    match qMin ts with
    | Option.none => some t
    | some u => if t.order ≤ u.order then some t else some u

/-- The rescan loop after a successful release (lines 1004-1053),
with `fuel` bounding iterations (each one removes a task): process the
task with the expected order while one is queued. -/
def drainFuel (beh : Nat → CallBeh) : Nat → List Task → Nat →
    List Task × Nat × List TEvent
  | 0, q, next => (q, next, [])
  | fuel + 1, q, next =>
    match q.find? (fun t => t.order == next) with
    | Option.none => (q, next, [])
    | some t =>
      let evs := (perform_translation_task t.order t.text t.lang (beh t.order)).2
      let r := drainFuel beh fuel (q.erase t) (next + 1)
      (r.1, r.2.1, evs ++ r.2.2)

/-- One iteration of the worker's outer loop (lines 976-1059) on a
non-empty queue: dequeue the minimum-order task; if it matches
`next_expected`, process it and drain successors, else put it back. -/
def worker_step (beh : Nat → CallBeh) (st : TransPipe) : TransPipe × List TEvent :=
  match qMin st.queue with
  | Option.none => (st, [])
  | some t =>
    if t.order = st.next_expected then
      let evs := (perform_translation_task t.order t.text t.lang (beh t.order)).2
      let q1 := st.queue.erase t
      let d := drainFuel beh q1.length q1 (st.next_expected + 1)
      ({ st with queue := d.1, next_expected := d.2.1 }, evs ++ d.2.2)
    else (st, [])

/-- Is an event terminal (`final` or `failed`)? -/
def isTerminal : TEvent → Bool
  | .final _ _ => true
  | .failed _ _ => true
  | _ => false

/-- The `order` field of an event. -/
def eventOrder : TEvent → Nat
  | .pending o => o
  | .streaming o _ _ => o
  | .final o _ => o
  | .failed o _ => o

/-- Orders of the terminal events of a trace, in emission order. -/
def terminalOrders (evs : List TEvent) : List Nat :=
  (evs.filter isTerminal).map eventOrder

/-- An interleaving action on the translation pipeline: a producer call
to `queue_translation`, or one worker-loop iteration. -/
inductive PipeAct where
  | enq (rid : Nat) (text : List Nat) (lang : Option (List Nat))
  | step
deriving Repr, DecidableEq

/-- Run an interleaving, collecting the emitted event trace. -/
def pipe_run (beh : Nat → CallBeh) (st : TransPipe) :
    List PipeAct → TransPipe × List TEvent
  | [] => (st, [])
  | PipeAct.enq rid text lang :: as => pipe_run beh (queue_translation st rid text lang).1 as
  | PipeAct.step :: as =>
    let r := worker_step beh st
    let rest := pipe_run beh r.1 as
    (rest.1, r.2 ++ rest.2)

/-- Pipeline state invariant: queued orders are pending (at least
`next_expected`, at most `counter`), tasks carry non-empty text and
target language (their enqueue sites guarantee both), the cursor never
runs past `counter + 1`, and queued orders are pairwise distinct. -/
def wfPipe (st : TransPipe) : Prop :=
  (∀ t ∈ st.queue,
    st.next_expected ≤ t.order ∧ t.order ≤ st.counter ∧ t.text ≠ [] ∧ t.lang ≠ []) ∧
  st.next_expected ≤ st.counter + 1 ∧
  (st.queue.map Task.order).Nodup

/-- A producer action is admissible when it only enqueues a non-empty
transcription (`process_combined_audio` queues only a truthy
`final_transcription`). -/
def actOk : PipeAct → Bool
  | .enq _ text _ => !text.isEmpty
  | .step => true

/-- All actions of an interleaving are admissible. -/
def wfActs (acts : List PipeAct) : Prop := ∀ a ∈ acts, actOk a = true

instance (st : TransPipe) : Decidable (wfPipe st) := by
  unfold wfPipe
  infer_instance

instance (acts : List PipeAct) : Decidable (wfActs acts) := by
  unfold wfActs
  infer_instance

/-- Orders returned by a sequence of successful `queue_translation`
calls. -/
def issue_orders (st : TransPipe) : List (Option (List Nat)) → List Nat
  | [] => []
  | l :: rest =>
    let r := queue_translation st 0 [49] l
    (if r.2.1 then [r.2.2] else []) ++ issue_orders r.1 rest

/-- A sample successful call behavior for concrete runs. -/
def behOk : Nat → CallBeh := fun _ => { deltas := [], result := some [120] }

/-- A sample behavior in which the call for order 1 raises. -/
def behFail1 : Nat → CallBeh := fun o =>
  if o = 1 then { deltas := [], result := Option.none }
  else { deltas := [], result := some [120] }

/-- Sample queued task with order 1. -/
def taskA : Task := { order := 1, rid := 4, text := [105], lang := [98] }

/-- Sample queued task with order 2. -/
def taskB : Task := { order := 2, rid := 5, text := [104], lang := [97] }

/-- Sample pipeline state whose queue holds orders 2 and 1. -/
def sampleSt : TransPipe := { counter := 2, next_expected := 1, queue := [taskB, taskA] }

/-- Sample pipeline state whose queue holds orders 1 and 2. -/
def sampleStOrd : TransPipe := { counter := 2, next_expected := 1, queue := [taskA, taskB] }

/-- Sample interleaving: a worker step, an enqueue, a worker step. -/
def sampleActs : List PipeAct := [PipeAct.step, PipeAct.enq 6 [106] (some [99]), PipeAct.step]

/-! ## Per-segment transcription threads

`record_audio` (lines 1295-1312) spawns one daemon thread per finalized
segment running `process_segment_chunks` → `process_combined_audio`.
Each thread increments `transcription_counter` and emits the placeholder
`result` message (lines 1377-1394), then performs the blocking
transcription call; when the call yields a truthy `final_transcription`
the thread emits the final `transcription_update` for its order (the
`if final_transcription:` branch, lines 1518-1537) as soon as its own
call completes — there is no sequencer on this stream.  When the call
yields no usable text, the else branch (lines 1585-1601) only logs a
warning and deletes the wav file: no terminal event is emitted for that
order at all.  We model each thread as a two-step program (assign order
and emit placeholder; complete the call, emitting the final event
exactly when the call succeeded) and quantify over interleavings; the
per-segment call outcome is an oracle carried by the thread, and the
final-event emission order is the completion order of the calls. -/

/-- One segment thread: `pc = 0` before the order assignment, `1` while
the transcription call is in flight, `2` after completion.  `ok` records
the outcome of the thread's transcription call: `true` when it produces
a truthy `final_transcription` (so a final event is emitted on
completion), `false` when the transcription is `None`/empty (so nothing
terminal is ever emitted for this order). -/
structure SegThread where
  pc : Nat
  ord : Nat
  ok : Bool
deriving Repr, DecidableEq

/-- `transcription_counter` plus the per-segment threads, listed in
segment-finalization order. -/
structure TranscribeSys where
  counter : Nat
  threads : List SegThread
deriving Repr, DecidableEq

/-- Events on the transcription stream: the placeholder `result` message
(`transcription_pending: true`) and the final `transcription_update`
(`transcription_pending: false`, `is_final: true`), each tagged with its
thread's assigned order. -/
inductive TrEvent where
  | placeholder (order : Nat)
  | finalUpd (order : Nat)
deriving Repr, DecidableEq

/-- Let thread `tid` execute its next step.  Completion (`pc = 1`) emits
the final `transcription_update` only when the call succeeded
(`th.ok`), mirroring the `if final_transcription:` gate at line 1518;
a failed transcription completes silently (lines 1585-1601). -/
def sys_step (st : TranscribeSys) (tid : Nat) : TranscribeSys × List TrEvent :=
  match st.threads.get? tid with
  | Option.none => (st, [])
  | some th =>
    if th.pc = 0 then
      let order := st.counter + 1
      ({ counter := order, threads := st.threads.set tid { th with pc := 1, ord := order } },
        [TrEvent.placeholder order])
    else if th.pc = 1 then
      ({ st with threads := st.threads.set tid { th with pc := 2 } },
        if th.ok then [TrEvent.finalUpd th.ord] else [])
    else (st, [])

/-- Run a schedule (a list of thread ids), collecting the event trace. -/
def sys_run (st : TranscribeSys) : List Nat → TranscribeSys × List TrEvent
  | [] => (st, [])
  | tid :: rest =>
    let r := sys_step st tid
    let r2 := sys_run r.1 rest
    (r2.1, r.2 ++ r2.2)

/-- Freshly spawned segment threads, one per entry of `oks` (the
per-segment call outcomes), with `transcription_counter` at 0. -/
def initSys (oks : List Bool) : TranscribeSys :=
  { counter := 0, threads := oks.map fun b => { pc := 0, ord := 0, ok := b } }

/-- Orders of the final `transcription_update` events, in emission
order. -/
def finalOrders (evs : List TrEvent) : List Nat :=
  evs.filterMap fun e =>
    match e with
    | .finalUpd o => some o
    | _ => Option.none

/-- Orders of the placeholder events, in emission order. -/
def placeholderOrders (evs : List TrEvent) : List Nat :=
  evs.filterMap fun e =>
    match e with
    | .placeholder o => some o
    | _ => Option.none

/-- Sum of per-thread multiset contributions. -/
def contribM (f : SegThread → Multiset Nat) (l : List SegThread) : Multiset Nat :=
  (l.map f).sum

/-- Order contributed by a thread that has passed its assignment step. -/
def startedOrd (th : SegThread) : Multiset Nat :=
  if 1 ≤ th.pc then {th.ord} else 0

/-- Order contributed by a thread that has completed a successful call
and therefore emitted its final event. -/
def doneOrd (th : SegThread) : Multiset Nat :=
  if th.pc = 2 ∧ th.ok = true then {th.ord} else 0

/-- Order contributed by a thread whose call succeeds. -/
def okOrd (th : SegThread) : Multiset Nat :=
  if th.ok = true then {th.ord} else 0

/-- Reachability invariant of the transcription system: `n` threads,
`transcription_counter` counts the assignment steps taken, the assigned
orders are exactly `1..counter` (so placeholders carry them in
ascending order), and the final events emitted so far are exactly the
orders of the completed threads whose calls succeeded. -/
def GoodSys (n : Nat) (st : TranscribeSys) (evs : List TrEvent) : Prop :=
  st.threads.length = n ∧
  contribM startedOrd st.threads = ((List.range' 1 st.counter : List Nat) : Multiset Nat) ∧
  placeholderOrders evs = List.range' 1 st.counter ∧
  ((finalOrders evs : List Nat) : Multiset Nat) = contribM doneOrd st.threads

/-- Segmentation-side invariant while no segment is active: the tracked
pre-roll frame count is the real total and stays within the cap. -/
def preInv (st : VadState) : Prop :=
  st.segment_active = false ∧
  st.pre_roll_frames = sumLen st.pre_roll_chunks ∧
  st.pre_roll_frames ≤ maxPre

/-! ## Lemmas: UTF-8 round trip -/

set_option maxRecDepth 8192 in
theorem readUtf8_rest_lt (l : List Nat) (c : Nat) (rest : List Nat)
    (h : readUtf8 l = some (c, rest)) : rest.length < l.length := by
  match l with
  | [] => simp [readUtf8] at h
  | b :: bs =>
    simp only [readUtf8] at h
    split at h
    · cases h; simp
    · split at h
      · cases h
      · split at h
        · match bs with
          | [] => cases h
          | b1 :: bs1 =>
            simp only at h
            split at h
            · cases h; simp; omega
            · cases h
        · split at h
          · match bs with
            | [] => cases h
            | [b1] => cases h
            | b1 :: b2 :: bs2 =>
              simp only at h
              split at h
              · split at h
                · cases h; simp; omega
                · cases h
              · cases h
          · split at h
            · match bs with
              | [] => cases h
              | [b1] => cases h
              | [b1, b2] => cases h
              | b1 :: b2 :: b3 :: bs3 =>
                simp only at h
                split at h
                · split at h
                  · cases h; simp; omega
                  · cases h
                · cases h
            · cases h

theorem utf8DecodeAux_congr (f1 : Nat) : ∀ (f2 : Nat) (l : List Nat),
    l.length ≤ f1 → l.length ≤ f2 → utf8DecodeAux f1 l = utf8DecodeAux f2 l := by
  induction f1 with
  | zero =>
    intro f2 l h1 _
    have : l = [] := List.eq_nil_of_length_eq_zero (Nat.le_zero.mp h1)
    subst this
    cases f2 <;> rfl
  | succ f1 ih =>
    intro f2 l h1 h2
    match f2 with
    | 0 =>
      have : l = [] := List.eq_nil_of_length_eq_zero (Nat.le_zero.mp h2)
      subst this
      rfl
    | f2 + 1 =>
      simp only [utf8DecodeAux]
      match hr : readUtf8 l with
      | some (c, rest) =>
        have hlt := readUtf8_rest_lt l c rest hr
        show c :: utf8DecodeAux f1 rest = c :: utf8DecodeAux f2 rest
        rw [ih f2 rest (by omega) (by omega)]
      | Option.none =>
        match l with
        | [] => rfl
        | b :: bs =>
          simp only [List.length_cons] at h1 h2
          show utf8DecodeAux f1 bs = utf8DecodeAux f2 bs
          rw [ih f2 bs (by omega) (by omega)]

theorem isSurrogate_iff (c : Nat) : isSurrogate c = true ↔ 0xD800 ≤ c ∧ c ≤ 0xDFFF := by
  simp [isSurrogate]

theorem isCont_iff (b : Nat) : isCont b = true ↔ 0x80 ≤ b ∧ b < 0xC0 := by
  simp [isCont]

theorem utf8Decode_eq_cons (l : List Nat) (c : Nat) (rest : List Nat)
    (h : readUtf8 l = some (c, rest)) : utf8Decode l = c :: utf8Decode rest := by
  have hlt := readUtf8_rest_lt l c rest h
  have hne : l ≠ [] := by
    intro he
    rw [he] at h
    cases h
  obtain ⟨b, bs, rfl⟩ := List.exists_cons_of_ne_nil hne
  show utf8DecodeAux (bs.length + 1) (b :: bs) = c :: utf8Decode rest
  simp only [utf8DecodeAux, h]
  rw [utf8DecodeAux_congr bs.length rest.length rest
    (by simp only [List.length_cons] at hlt; omega) (Nat.le_refl _)]
  rfl

theorem utf8Decode_nil : utf8Decode [] = [] := rfl

theorem readUtf8_enc1 (c : Nat) (h : c < 0x80) (bs : List Nat) :
    readUtf8 (c :: bs) = some (c, bs) := by
  simp only [readUtf8]
  rw [if_pos h]

theorem readUtf8_enc2 (c : Nat) (h1 : 0x80 ≤ c) (h2 : c < 0x800) (bs : List Nat) :
    readUtf8 ((0xC0 + c / 64) :: (0x80 + c % 64) :: bs) = some (c, bs) := by
  have e1 : ¬ (0xC0 + c / 64 < 0x80) := by omega
  have e2 : ¬ (0xC0 + c / 64 < 0xC2) := by omega
  have e3 : 0xC0 + c / 64 < 0xE0 := by omega
  have e4 : isCont (0x80 + c % 64) = true := by rw [isCont_iff]; omega
  simp only [readUtf8, e1, e2, e3, e4, if_false, if_true, contVal]
  simp only [Option.some.injEq, Prod.mk.injEq]
  constructor
  · omega
  · trivial

theorem readUtf8_enc3 (c : Nat) (h1 : 0x800 ≤ c) (h2 : c < 0x10000)
    (hs : isSurrogate c = false) (bs : List Nat) :
    readUtf8 ((0xE0 + c / 4096) :: (0x80 + (c / 64) % 64) :: (0x80 + c % 64) :: bs)
      = some (c, bs) := by
  have e1 : ¬ (0xE0 + c / 4096 < 0x80) := by omega
  have e2 : ¬ (0xE0 + c / 4096 < 0xC2) := by omega
  have e3 : ¬ (0xE0 + c / 4096 < 0xE0) := by omega
  have e4 : 0xE0 + c / 4096 < 0xF0 := by omega
  have e5 : isCont (0x80 + (c / 64) % 64) = true := by rw [isCont_iff]; omega
  have e6 : isCont (0x80 + c % 64) = true := by rw [isCont_iff]; omega
  have hval : (0xE0 + c / 4096 - 0xE0) * 4096 + contVal (0x80 + (c / 64) % 64) * 64
      + contVal (0x80 + c % 64) = c := by
    simp only [contVal]
    omega
  simp only [readUtf8, e1, e2, e3, e4, e5, e6, if_false, if_true, Bool.and_self, hval]
  have e7 : (decide (0x800 ≤ c) && !(isSurrogate c)) = true := by
    simp [hs]; omega
  rw [if_pos e7]

theorem readUtf8_enc4 (c : Nat) (h1 : 0x10000 ≤ c) (h2 : c < 0x110000) (bs : List Nat) :
    readUtf8 ((0xF0 + c / 262144) :: (0x80 + (c / 4096) % 64) :: (0x80 + (c / 64) % 64)
        :: (0x80 + c % 64) :: bs) = some (c, bs) := by
  have e1 : ¬ (0xF0 + c / 262144 < 0x80) := by omega
  have e2 : ¬ (0xF0 + c / 262144 < 0xC2) := by omega
  have e3 : ¬ (0xF0 + c / 262144 < 0xE0) := by omega
  have e4 : ¬ (0xF0 + c / 262144 < 0xF0) := by omega
  have e5 : 0xF0 + c / 262144 < 0xF5 := by omega
  have e6 : isCont (0x80 + (c / 4096) % 64) = true := by rw [isCont_iff]; omega
  have e7 : isCont (0x80 + (c / 64) % 64) = true := by rw [isCont_iff]; omega
  have e8 : isCont (0x80 + c % 64) = true := by rw [isCont_iff]; omega
  have hval : (0xF0 + c / 262144 - 0xF0) * 262144 + contVal (0x80 + (c / 4096) % 64) * 4096
      + contVal (0x80 + (c / 64) % 64) * 64 + contVal (0x80 + c % 64) = c := by
    simp only [contVal]
    omega
  simp only [readUtf8, e1, e2, e3, e4, e5, e6, e7, e8, if_false, if_true, Bool.and_self, hval]
  have e9 : (decide (0x10000 ≤ c) && decide (c < 0x110000)) = true := by
    simp; omega
  rw [if_pos e9]

theorem utf8EncodeChar_surr (c : Nat) (hs : isSurrogate c = true) :
    utf8EncodeChar c = [] := by
  rw [isSurrogate_iff] at hs
  have e1 : ¬ c < 0x80 := by omega
  have e2 : ¬ c < 0x800 := by omega
  simp only [utf8EncodeChar, e1, e2, if_false]
  rw [if_pos]
  rw [isSurrogate_iff]
  omega

theorem utf8Decode_encChar (c : Nat) (hc : c < 0x110000) (hs : isSurrogate c = false)
    (bs : List Nat) : utf8Decode (utf8EncodeChar c ++ bs) = c :: utf8Decode bs := by
  by_cases h1 : c < 0x80
  · rw [utf8EncodeChar, if_pos h1]
    exact utf8Decode_eq_cons _ _ _ (readUtf8_enc1 c h1 bs)
  · by_cases h2 : c < 0x800
    · rw [utf8EncodeChar, if_neg h1, if_pos h2]
      exact utf8Decode_eq_cons _ _ _ (readUtf8_enc2 c (by omega) h2 bs)
    · by_cases h3 : c < 0x10000
      · rw [utf8EncodeChar, if_neg h1, if_neg h2, if_neg (by rw [hs]; exact Bool.false_ne_true),
          if_pos h3]
        exact utf8Decode_eq_cons _ _ _ (readUtf8_enc3 c (by omega) h3 hs bs)
      · rw [utf8EncodeChar, if_neg h1, if_neg h2, if_neg (by rw [hs]; exact Bool.false_ne_true),
          if_neg h3, if_pos hc]
        exact utf8Decode_eq_cons _ _ _ (readUtf8_enc4 c (by omega) hc bs)

/-- The UTF-8 `ignore`/`ignore` round trip drops exactly the surrogate
code units of a well-formed Python string. -/
theorem utf8Decode_utf8Encode (s : List Nat) (h : ∀ c ∈ s, c < 0x110000) :
    utf8Decode (utf8Encode s) = s.filter (fun c => !(isSurrogate c)) := by
  induction s with
  | nil => simpa [utf8Encode] using utf8Decode_nil
  | cons c cs ih =>
    have hc : c < 0x110000 := h c (List.mem_cons_self c cs)
    have hcs : ∀ x ∈ cs, x < 0x110000 := fun x hx => h x (List.mem_cons_of_mem c hx)
    have henc : utf8Encode (c :: cs) = utf8EncodeChar c ++ utf8Encode cs := by
      simp [utf8Encode]
    by_cases hs : isSurrogate c = true
    · rw [henc, utf8EncodeChar_surr c hs, List.nil_append, ih hcs,
        List.filter_cons_of_neg (by simp [hs])]
    · have hs2 : isSurrogate c = false := by
        cases hb : isSurrogate c
        · rfl
        · exact absurd hb hs
      rw [henc, utf8Decode_encChar c hc hs2, ih hcs,
        List.filter_cons_of_pos (by simp [hs2])]

/-! ## Lemmas: segmentation pre-roll invariant -/

theorem sumLen_append (l1 l2 : List Chunk) : sumLen (l1 ++ l2) = sumLen l1 + sumLen l2 := by
  simp [sumLen]

theorem trimPreRoll_spec (chunks : List Chunk) : ∀ total : Nat,
    total = sumLen chunks →
    (trimPreRoll chunks total).2 = sumLen (trimPreRoll chunks total).1 ∧
    (trimPreRoll chunks total).2 ≤ maxPre := by
  induction chunks with
  | nil =>
    intro total h
    simp only [trimPreRoll]
    simp only [sumLen, List.map_nil, List.sum_nil] at h
    exact ⟨by simp [sumLen, h], by omega⟩
  | cons c rest ih =>
    intro total h
    by_cases hgt : total > maxPre
    · simp only [trimPreRoll, if_pos hgt]
      apply ih
      simp only [sumLen, List.map_cons, List.sum_cons] at h
      simp only [sumLen]
      omega
    · simp only [trimPreRoll, if_neg hgt]
      exact ⟨h, by omega⟩

theorem audio_callback_silent_eq (st : VadState) (c : Chunk)
    (ha : st.segment_active = false) (hsil : c.rms < SILENCE_RMS_THRESHOLD)
    (hlen : c.len ≠ 0) :
    audio_callback st c =
      { st with
        pre_roll_chunks :=
          (trimPreRoll (st.pre_roll_chunks ++ [c]) (st.pre_roll_frames + c.len)).1
        pre_roll_frames :=
          (trimPreRoll (st.pre_roll_chunks ++ [c]) (st.pre_roll_frames + c.len)).2 } := by
  have hns : ¬ SILENCE_RMS_THRESHOLD ≤ c.rms := not_le.mpr hsil
  simp [audio_callback, hlen, ha, hns]

theorem audio_callback_silent_preInv (st : VadState) (c : Chunk)
    (hinv : preInv st) (hsil : c.rms < SILENCE_RMS_THRESHOLD) :
    preInv (audio_callback st c) := by
  obtain ⟨ha, hsum, hle⟩ := hinv
  by_cases hlen : c.len = 0
  · simp only [audio_callback, if_pos hlen]
    exact ⟨ha, hsum, hle⟩
  · rw [audio_callback_silent_eq st c ha hsil hlen]
    have htrim := trimPreRoll_spec (st.pre_roll_chunks ++ [c]) (st.pre_roll_frames + c.len)
      (by rw [sumLen_append, hsum]; simp [sumLen])
    exact ⟨ha, htrim.1, htrim.2⟩

theorem harvest_split_preInv (st : RecState) (h : preInv st.vad) :
    preInv (harvest_split st).vad := by
  obtain ⟨ha, hsum, hle⟩ := h
  unfold harvest_split
  by_cases hs : st.vad.split_requested <;> simp [hs] <;> exact ⟨ha, hsum, hle⟩

theorem feed_silent_preInv (cs : List Chunk) : ∀ rst : RecState,
    (∀ c ∈ cs, c.rms < SILENCE_RMS_THRESHOLD) → preInv rst.vad →
    preInv (feed rst cs).vad := by
  induction cs with
  | nil =>
    intro rst _ h
    exact h
  | cons c rest ih =>
    intro rst hsil h
    have hstep : preInv (feedChunk rst c).vad :=
      harvest_split_preInv _ (audio_callback_silent_preInv _ _ h
        (hsil c (List.mem_cons_self c rest)))
    exact ih (feedChunk rst c) (fun x hx => hsil x (List.mem_cons_of_mem c hx)) hstep

/-! ## Claim C6: the pre-roll cap -/

/-- C6: while no segment is active, any sequence of below-threshold
blocks — of any length — leaves `pre_roll_frames` at or below
`int(PRE_ROLL_SECONDS * SAMPLE_RATE)` after every `audio_callback`
invocation (the trimming loop restores the cap exactly, so the
claimed one-chunk slack is not even needed): older chunks are dropped
from the front until the cap is restored. -/
theorem pre_roll_cap_invariant (cs : List Chunk)
    (hsil : ∀ c ∈ cs, c.rms < SILENCE_RMS_THRESHOLD) (n : Nat) :
    (feed initRec (cs.take n)).vad.pre_roll_frames ≤ maxPre := by
  have h1 : ∀ c ∈ cs.take n, c.rms < SILENCE_RMS_THRESHOLD :=
    fun c hc => hsil c (List.take_subset n cs hc)
  have h2 : preInv initRec.vad := ⟨rfl, rfl, Nat.zero_le _⟩
  exact (feed_silent_preInv (cs.take n) initRec h1 h2).2.2

/-- Witness for C6: 1.2 seconds of silent blocks at the 0.1 s block
size. -/
theorem pre_roll_cap_invariant_witness :
    (∀ c ∈ List.replicate 12 silentChunk, c.rms < SILENCE_RMS_THRESHOLD) ∧
    (feed initRec ((List.replicate 12 silentChunk).take 12)).vad.pre_roll_frames ≤ maxPre :=
  ⟨by decide, pre_roll_cap_invariant (List.replicate 12 silentChunk) (by decide) 12⟩

/-! ## Lemmas: order issuing -/

theorem issue_orders_gt (langs : List (Option (List Nat))) : ∀ st : TransPipe,
    ∀ o ∈ issue_orders st langs, st.counter < o := by
  induction langs with
  | nil =>
    intro st o ho
    simp [issue_orders] at ho
  | cons l rest ih =>
    intro st o ho
    match l with
    | Option.none =>
      simp only [issue_orders, queue_translation] at ho
      simp only [if_neg Bool.false_ne_true, List.nil_append] at ho
      exact ih st o ho
    | some ls =>
      by_cases hg : ls = [] ∨ pyStrip ls = []
      · simp only [issue_orders, queue_translation, if_pos hg] at ho
        simp only [if_neg Bool.false_ne_true, List.nil_append] at ho
        exact ih st o ho
      · simp only [issue_orders, queue_translation, if_neg hg, if_true,
          List.singleton_append, List.mem_cons] at ho
        rcases ho with rfl | ho
        · omega
        · have := ih _ o ho
          simp only at this
          omega

/-! ## Claim C5: order continuity across a session restart -/

/-- C5: after orders up to `k = translation_counter` have been issued,
`restart_translation_worker` leaves `translation_counter` at `k`,
realigns the worker's initial expected cursor to `k + 1`, and the next
`queue_translation` call with a usable target language returns
`(True, k + 1)` — not order 1 — while every order issued after the
restart exceeds `k`, so no order value is ever reused across a
restart. -/
theorem restart_realignment (st : TransPipe) (rid : Nat) (text l : List Nat)
    (hk : 1 ≤ st.counter) (hl : pyStrip l ≠ []) :
    (restart_translation_worker st).counter = st.counter ∧
    worker_init_expected (restart_translation_worker st) = st.counter + 1 ∧
    (queue_translation (restart_translation_worker st) rid text (some l)).2
      = (true, st.counter + 1) ∧
    st.counter + 1 ≠ 1 ∧
    (∀ langs, ∀ o ∈ issue_orders (restart_translation_worker st) langs,
      st.counter < o) := by
  have hne : l ≠ [] := by
    intro he
    exact hl (by rw [he]; rfl)
  refine ⟨rfl, ?_, ?_, by omega, ?_⟩
  · simp [worker_init_expected, restart_translation_worker]
  · simp [queue_translation, restart_translation_worker, hne, hl]
  · intro langs o ho
    have := issue_orders_gt langs (restart_translation_worker st) o ho
    simpa [restart_translation_worker] using this

/-- Witness for C5 with three orders already issued. -/
theorem restart_realignment_witness :
    (1 ≤ (3 : Nat)) ∧
    ((restart_translation_worker { counter := 3, next_expected := 9, queue := [] }).counter = 3 ∧
      worker_init_expected
        (restart_translation_worker { counter := 3, next_expected := 9, queue := [] }) = 4 ∧
      (queue_translation
          (restart_translation_worker { counter := 3, next_expected := 9, queue := [] })
          0 [104] (some [97])).2 = (true, 4) ∧
      (3 : Nat) + 1 ≠ 1 ∧
      (∀ langs, ∀ o ∈ issue_orders
          (restart_translation_worker { counter := 3, next_expected := 9, queue := [] }) langs,
        3 < o)) :=
  ⟨by decide,
    restart_realignment { counter := 3, next_expected := 9, queue := [] } 0 [104] [97]
      (by decide) (by decide)⟩

/-! ## Lemmas: translation worker sequencing -/

theorem terminalOrders_append (a b : List TEvent) :
    terminalOrders (a ++ b) = terminalOrders a ++ terminalOrders b := by
  simp [terminalOrders]

theorem stream_fold_no_terminal (order : Nat) (ds : List PyVal) : ∀ acc,
    (stream_fold order acc ds).2.filter isTerminal = [] := by
  induction ds with
  | nil =>
    intro acc
    rfl
  | cons d rest ih =>
    intro acc
    simp only [stream_fold]
    by_cases h : sanitize_utf8_text d = []
    · rw [if_pos h]
      exact ih acc
    · rw [if_neg h]
      rw [List.filter_cons_of_neg (by simp [isTerminal])]
      exact ih _

theorem terminalOrders_shape (o : Nat) (sevs : List TEvent) (tev : TEvent)
    (hs : sevs.filter isTerminal = []) (hterm : isTerminal tev = true)
    (hord : eventOrder tev = o) :
    terminalOrders (TEvent.pending o :: sevs ++ [tev]) = [o] := by
  simp only [terminalOrders, List.filter_cons_of_neg (by simp [isTerminal] :
    ¬ isTerminal (TEvent.pending o) = true), List.filter_append, hs, List.nil_append]
  rw [List.filter_cons_of_pos hterm]
  simp [hord]

theorem perform_terminalOrders (order : Nat) (text lang : List Nat) (beh : CallBeh)
    (ht : text ≠ []) (hl : lang ≠ []) :
    terminalOrders (perform_translation_task order text lang beh).2 = [order] := by
  have hor : ¬ (text = [] ∨ lang = []) := by
    intro h
    rcases h with h | h
    · exact ht h
    · exact hl h
  unfold perform_translation_task
  rw [if_neg hor]
  match hr : beh.result with
  | some t =>
    by_cases hne : t ≠ []
    · simp only [if_pos hne]
      exact terminalOrders_shape order _ _ (stream_fold_no_terminal order beh.deltas []) rfl rfl
    · simp only [if_neg hne]
      exact terminalOrders_shape order _ _ (stream_fold_no_terminal order beh.deltas []) rfl rfl
  | Option.none =>
    exact terminalOrders_shape order _ _ (stream_fold_no_terminal order beh.deltas []) rfl rfl

theorem perform_failed_mem (order : Nat) (text lang : List Nat) (beh : CallBeh)
    (ht : text ≠ []) (hl : lang ≠ []) (hf : beh.result = Option.none) :
    ∃ txt, TEvent.failed order txt ∈ (perform_translation_task order text lang beh).2 := by
  have hor : ¬ (text = [] ∨ lang = []) := by
    intro h
    rcases h with h | h
    · exact ht h
    · exact hl h
  unfold perform_translation_task
  rw [if_neg hor, hf]
  exact ⟨failText (stream_fold order [] beh.deltas).1,
    List.mem_cons_of_mem _ (List.mem_append_right _ (List.mem_singleton_self _))⟩

theorem qMin_eq_none_iff (q : List Task) : qMin q = Option.none ↔ q = [] := by
  match q with
  | [] => simp [qMin]
  | t :: ts =>
    simp only [qMin]
    constructor
    · intro h
      match hm : qMin ts with
      | Option.none =>
        simp only [hm] at h
        exact Option.noConfusion h
      | some u =>
        simp only [hm] at h
        by_cases hle : t.order ≤ u.order
        · rw [if_pos hle] at h; cases h
        · rw [if_neg hle] at h; cases h
    · intro h
      cases h

theorem qMin_mem (q : List Task) : ∀ t, qMin q = some t → t ∈ q := by
  induction q with
  | nil =>
    intro t h
    cases h
  | cons hd tl ih =>
    intro t h
    simp only [qMin] at h
    match hm : qMin tl with
    | Option.none =>
      simp only [hm] at h
      injection h with h
      rw [← h]
      exact List.mem_cons_self hd tl
    | some u =>
      simp only [hm] at h
      by_cases hle : hd.order ≤ u.order
      · rw [if_pos hle] at h
        injection h with h
        rw [← h]
        exact List.mem_cons_self hd tl
      · rw [if_neg hle] at h
        injection h with h
        rw [← h]
        exact List.mem_cons_of_mem hd (ih u hm)

theorem qMin_min (q : List Task) : ∀ t, qMin q = some t → ∀ u ∈ q, t.order ≤ u.order := by
  induction q with
  | nil =>
    intro t h
    cases h
  | cons hd tl ih =>
    intro t h u hu
    simp only [qMin] at h
    match hm : qMin tl with
    | Option.none =>
      simp only [hm] at h
      injection h with h
      have htl : tl = [] := (qMin_eq_none_iff tl).mp hm
      subst htl
      have hu2 : u = hd := by simpa using hu
      rw [← h, hu2]
    | some v =>
      simp only [hm] at h
      have hv := ih v hm
      by_cases hle : hd.order ≤ v.order
      · rw [if_pos hle] at h
        injection h with h
        rw [← h]
        rcases List.mem_cons.mp hu with rfl | hu2
        · exact le_refl _
        · exact le_trans hle (hv u hu2)
      · rw [if_neg hle] at h
        injection h with h
        rw [← h]
        rcases List.mem_cons.mp hu with rfl | hu2
        · omega
        · exact hv u hu2

theorem nodup_map_order_inj (q : List Task) (h : (q.map Task.order).Nodup) :
    ∀ a ∈ q, ∀ b ∈ q, a.order = b.order → a = b := by
  induction q with
  | nil =>
    intro a ha
    cases ha
  | cons hd tl ih =>
    intro a ha b hb hab
    simp only [List.map_cons, List.nodup_cons] at h
    rcases List.mem_cons.mp ha with rfl | ha2 <;> rcases List.mem_cons.mp hb with rfl | hb2
    · rfl
    · exact absurd (hab ▸ List.mem_map_of_mem Task.order hb2) h.1
    · exact absurd (hab ▸ List.mem_map_of_mem Task.order ha2) h.1
    · exact ih h.2 a ha2 b hb2 hab

theorem drainFuel_spec (beh : Nat → CallBeh) (fuel : Nat) : ∀ (q : List Task) (next : Nat),
    q.length ≤ fuel →
    (∀ t ∈ q, t.text ≠ [] ∧ t.lang ≠ []) →
    (q.map Task.order).Nodup →
    next ≤ (drainFuel beh fuel q next).2.1 ∧
    terminalOrders (drainFuel beh fuel q next).2.2
      = List.range' next ((drainFuel beh fuel q next).2.1 - next) ∧
    (∀ t ∈ (drainFuel beh fuel q next).1, t ∈ q) ∧
    (∀ t ∈ (drainFuel beh fuel q next).1,
      t.order < next ∨ (drainFuel beh fuel q next).2.1 < t.order) ∧
    ((drainFuel beh fuel q next).1.map Task.order).Nodup ∧
    (∀ o, next ≤ o → o < (drainFuel beh fuel q next).2.1 → ∃ t ∈ q, t.order = o) := by
  induction fuel with
  | zero =>
    intro q next hlen hq hnd
    have hq0 : q = [] := List.eq_nil_of_length_eq_zero (Nat.le_zero.mp hlen)
    subst hq0
    refine ⟨le_refl _, by simp [drainFuel, terminalOrders, List.range'], ?_, ?_, ?_, ?_⟩
    · intro t ht
      exact ht
    · intro t ht
      simp [drainFuel] at ht
    · exact hnd
    · intro o h1 h2
      simp [drainFuel] at h1 h2
      omega
  | succ fuel ih =>
    intro q next hlen hq hnd
    match hf : q.find? (fun t => t.order == next) with
    | Option.none =>
      simp only [drainFuel, hf]
      refine ⟨le_refl _, by simp [terminalOrders, List.range'], fun t ht => ht, ?_, hnd, ?_⟩
      · intro t ht
        have hne := List.find?_eq_none.mp hf t ht
        simp only [beq_iff_eq] at hne
        omega
      · intro o h1 h2
        omega
    | some t =>
      have htq : t ∈ q := List.mem_of_find?_eq_some hf
      have hord : t.order = next := by
        have := List.find?_some hf
        simpa using this
      have hpos : 0 < q.length := List.length_pos.mpr (List.ne_nil_of_mem htq)
      have htl : (q.erase t).length ≤ fuel := by
        rw [List.length_erase_of_mem htq]
        omega
      have hsub : ∀ x ∈ q.erase t, x ∈ q := fun x hx => List.mem_of_mem_erase hx
      have hq2 : ∀ x ∈ q.erase t, x.text ≠ [] ∧ x.lang ≠ [] := fun x hx => hq x (hsub x hx)
      have hnd2 : ((q.erase t).map Task.order).Nodup :=
        List.Nodup.sublist ((List.erase_sublist t q).map Task.order) hnd
      have hqnd : q.Nodup := List.Nodup.of_map Task.order hnd
      have hxne : ∀ x ∈ q.erase t, x.order ≠ next := by
        intro x hx hxo
        have hxq : x ∈ q := hsub x hx
        have hxt : x = t := nodup_map_order_inj q hnd x hxq t htq (by omega)
        rw [hxt] at hx
        exact ((List.Nodup.mem_erase_iff hqnd).mp hx).1 rfl
      obtain ⟨d1, d2, d3, d4, d5, d6⟩ := ih (q.erase t) (next + 1) htl hq2 hnd2
      simp only [drainFuel, hf]
      refine ⟨by omega, ?_, ?_, ?_, d5, ?_⟩
      · rw [terminalOrders_append,
          perform_terminalOrders t.order t.text t.lang (beh t.order) (hq t htq).1 (hq t htq).2,
          d2, hord]
        have harith : (drainFuel beh fuel (q.erase t) (next + 1)).2.1 - next
            = ((drainFuel beh fuel (q.erase t) (next + 1)).2.1 - (next + 1)) + 1 := by
          omega
        rw [harith, List.range'_succ next _ 1]
        rfl
      · intro x hx
        exact hsub x (d3 x hx)
      · intro x hx
        have hd4 := d4 x hx
        have hxo := hxne x (d3 x hx)
        omega
      · intro o h1 h2
        by_cases ho : o = next
        · exact ⟨t, htq, by omega⟩
        · obtain ⟨x, hx, hxo⟩ := d6 o (by omega) h2
          exact ⟨x, hsub x hx, hxo⟩

theorem worker_step_spec (beh : Nat → CallBeh) (st : TransPipe) (h : wfPipe st) :
    wfPipe (worker_step beh st).1 ∧
    st.next_expected ≤ (worker_step beh st).1.next_expected ∧
    (worker_step beh st).1.counter = st.counter ∧
    terminalOrders (worker_step beh st).2
      = List.range' st.next_expected
          ((worker_step beh st).1.next_expected - st.next_expected) ∧
    (∀ t2 ∈ (worker_step beh st).1.queue,
      t2.order ≠ (worker_step beh st).1.next_expected) := by
  obtain ⟨hq, hnc, hnd⟩ := h
  match hm : qMin st.queue with
  | Option.none =>
    have hqe : st.queue = [] := (qMin_eq_none_iff st.queue).mp hm
    simp only [worker_step, hm, wfPipe]
    refine ⟨⟨hq, hnc, hnd⟩, le_refl _, by trivial, by simp [terminalOrders, List.range'], ?_⟩
    intro t2 ht2
    rw [hqe] at ht2
    cases ht2
  | some t =>
    have htq := qMin_mem st.queue t hm
    by_cases ho : t.order = st.next_expected
    · have hsub : ∀ x ∈ st.queue.erase t, x ∈ st.queue :=
        fun x hx => List.mem_of_mem_erase hx
      have hq2 : ∀ x ∈ st.queue.erase t, x.text ≠ [] ∧ x.lang ≠ [] :=
        fun x hx => ⟨(hq x (hsub x hx)).2.2.1, (hq x (hsub x hx)).2.2.2⟩
      have hnd2 : ((st.queue.erase t).map Task.order).Nodup :=
        List.Nodup.sublist ((List.erase_sublist t st.queue).map Task.order) hnd
      have hqnd : st.queue.Nodup := List.Nodup.of_map Task.order hnd
      have hxne : ∀ x ∈ st.queue.erase t, x.order ≠ st.next_expected := by
        intro x hx hxo
        have hxq : x ∈ st.queue := hsub x hx
        have hxt : x = t := nodup_map_order_inj st.queue hnd x hxq t htq (by omega)
        rw [hxt] at hx
        exact ((List.Nodup.mem_erase_iff hqnd).mp hx).1 rfl
      obtain ⟨d1, d2, d3, d4, d5, d6⟩ := drainFuel_spec beh (st.queue.erase t).length
        (st.queue.erase t) (st.next_expected + 1) (le_refl _) hq2 hnd2
      simp only [worker_step, hm, if_pos ho, wfPipe]
      refine ⟨⟨?_, ?_, d5⟩, by omega, by trivial, ?_, ?_⟩
      · intro x hx
        have hxq := hsub x (d3 x hx)
        have hwf := hq x hxq
        have hd4 := d4 x hx
        have hxo := hxne x (d3 x hx)
        exact ⟨by omega, hwf.2.1, hwf.2.2.1, hwf.2.2.2⟩
      · by_cases hgt :
          st.next_expected + 1 < (drainFuel beh (st.queue.erase t).length
            (st.queue.erase t) (st.next_expected + 1)).2.1
        · obtain ⟨x, hx, hxo⟩ := d6 ((drainFuel beh (st.queue.erase t).length
              (st.queue.erase t) (st.next_expected + 1)).2.1 - 1) (by omega) (by omega)
          have hxc := (hq x (hsub x hx)).2.1
          omega
        · have hto := (hq t htq).2.1
          omega
      · rw [terminalOrders_append,
          perform_terminalOrders t.order t.text t.lang (beh t.order)
            (hq t htq).2.2.1 (hq t htq).2.2.2,
          d2, ho]
        have harith : (drainFuel beh (st.queue.erase t).length (st.queue.erase t)
            (st.next_expected + 1)).2.1 - st.next_expected
            = ((drainFuel beh (st.queue.erase t).length (st.queue.erase t)
                (st.next_expected + 1)).2.1 - (st.next_expected + 1)) + 1 := by
          omega
        rw [harith, List.range'_succ st.next_expected _ 1]
        rfl
      · intro t2 ht2
        have hd4 := d4 t2 ht2
        omega
    · simp only [worker_step, hm, if_neg ho, wfPipe]
      refine ⟨⟨hq, hnc, hnd⟩, le_refl _, by trivial, by simp [terminalOrders, List.range'], ?_⟩
      intro t2 ht2 hcontra
      have h1 := qMin_min st.queue t hm t2 ht2
      have h2 := (hq t htq).1
      omega

theorem queue_translation_wf (st : TransPipe) (rid : Nat) (text : List Nat)
    (lang : Option (List Nat)) (h : wfPipe st) (htext : text ≠ []) :
    wfPipe (queue_translation st rid text lang).1 ∧
    (queue_translation st rid text lang).1.next_expected = st.next_expected := by
  obtain ⟨hq, hnc, hnd⟩ := h
  match lang with
  | Option.none => exact ⟨⟨hq, hnc, hnd⟩, by trivial⟩
  | some l =>
    by_cases hg : l = [] ∨ pyStrip l = []
    · simp only [queue_translation, if_pos hg]
      exact ⟨⟨hq, hnc, hnd⟩, by trivial⟩
    · simp only [queue_translation, if_neg hg, wfPipe]
      refine ⟨⟨?_, by omega, ?_⟩, by trivial⟩
      · intro x hx
        rcases List.mem_append.mp hx with hx | hx
        · have hw := hq x hx
          exact ⟨hw.1, by omega, hw.2.2.1, hw.2.2.2⟩
        · have hx2 : x = { order := st.counter + 1, rid := rid, text := text, lang := l } := by
            simpa using hx
          subst hx2
          exact ⟨by simpa using hnc, le_refl _, htext, fun he => hg (Or.inl he)⟩
      · rw [List.map_append, List.nodup_append]
        refine ⟨hnd, by simp, ?_⟩
        intro o hol hor
        simp only [List.map_cons, List.map_nil, List.mem_singleton] at hor
        obtain ⟨x, hx, hxo⟩ := List.mem_map.mp hol
        have := (hq x hx).2.1
        omega

theorem pipe_run_spec (beh : Nat → CallBeh) (acts : List PipeAct) : ∀ st : TransPipe,
    wfPipe st → wfActs acts →
    wfPipe (pipe_run beh st acts).1 ∧
    st.next_expected ≤ (pipe_run beh st acts).1.next_expected ∧
    terminalOrders (pipe_run beh st acts).2
      = List.range' st.next_expected
          ((pipe_run beh st acts).1.next_expected - st.next_expected) := by
  induction acts with
  | nil =>
    intro st h _
    exact ⟨h, le_refl _, by simp [pipe_run, terminalOrders, List.range']⟩
  | cons a rest ih =>
    intro st h ha
    have harest : wfActs rest := fun x hx => ha x (List.mem_cons_of_mem a hx)
    match a with
    | PipeAct.enq rid text lang =>
      have htext : text ≠ [] := by
        have hok := ha _ (List.mem_cons_self _ _)
        simp only [actOk, Bool.not_eq_true'] at hok
        intro he
        rw [he] at hok
        simp at hok
      have hqw := queue_translation_wf st rid text lang h htext
      have hrec := ih _ hqw.1 harest
      simp only [pipe_run]
      exact ⟨hrec.1, by rw [← hqw.2]; exact hrec.2.1, by rw [← hqw.2]; exact hrec.2.2⟩
    | PipeAct.step =>
      have hstep := worker_step_spec beh st h
      have hrec := ih (worker_step beh st).1 hstep.1 harest
      simp only [pipe_run]
      refine ⟨hrec.1, by have := hstep.2.1; have := hrec.2.1; omega, ?_⟩
      rw [terminalOrders_append, hstep.2.2.2.1, hrec.2.2]
      obtain ⟨m, hm⟩ : ∃ m, (worker_step beh st).1.next_expected = st.next_expected + m :=
        ⟨(worker_step beh st).1.next_expected - st.next_expected, by
          have := hstep.2.1
          omega⟩
      obtain ⟨k, hk⟩ : ∃ k, (pipe_run beh (worker_step beh st).1 rest).1.next_expected
          = (worker_step beh st).1.next_expected + k :=
        ⟨(pipe_run beh (worker_step beh st).1 rest).1.next_expected
            - (worker_step beh st).1.next_expected, by
          have := hrec.2.1
          omega⟩
      rw [hk, hm]
      have h1 : st.next_expected + m - st.next_expected = m := by omega
      have h2 : st.next_expected + m + k - st.next_expected = m + k := by omega
      have h3 := List.range'_append st.next_expected m k 1
      simp only [one_mul] at h3
      have h4 : st.next_expected + m + k - (st.next_expected + m) = k := by omega
      rw [h1, h2, h4, Nat.add_comm m k, ← h3]

/-! ## Claim C2: ordered release on the translation stream -/

/-- C2: (a) over any admissible interleaving of `queue_translation` calls
and worker iterations from a well-formed pipeline state, the terminal
`translation_update` events are released with strictly ascending,
consecutive orders starting at the expected cursor; (b) a dequeued task
whose order is not the expected one is put back unprocessed (the state,
viewed with the queue as a multiset, is unchanged and nothing is
emitted); (c) after a worker iteration no queued task carries the new
expected order — the iteration drained every now-ready successor before
waiting again. -/
theorem translation_release_ordered (beh : Nat → CallBeh) (st0 : TransPipe)
    (acts : List PipeAct) (h0 : wfPipe st0) (ha : wfActs acts) :
    (terminalOrders (pipe_run beh st0 acts).2
      = List.range' st0.next_expected
          ((pipe_run beh st0 acts).1.next_expected - st0.next_expected)) ∧
    (∀ st : TransPipe, ∀ t : Task, qMin st.queue = some t →
      t.order ≠ st.next_expected → worker_step beh st = (st, [])) ∧
    (∀ st : TransPipe, wfPipe st →
      ∀ t2 ∈ (worker_step beh st).1.queue,
        t2.order ≠ (worker_step beh st).1.next_expected) := by
  refine ⟨(pipe_run_spec beh acts st0 h0 ha).2.2, ?_, ?_⟩
  · intro st t hm hne
    simp only [worker_step, hm, if_neg hne]
  · intro st hwf
    exact (worker_step_spec beh st hwf).2.2.2.2

/-- Witness for C2: two tasks enqueued out of order around worker
steps. -/
theorem translation_release_ordered_witness :
    wfPipe sampleSt ∧ wfActs sampleActs ∧
    ((terminalOrders (pipe_run behOk sampleSt sampleActs).2
      = List.range' sampleSt.next_expected
          ((pipe_run behOk sampleSt sampleActs).1.next_expected
            - sampleSt.next_expected)) ∧
    (∀ st : TransPipe, ∀ t : Task, qMin st.queue = some t →
      t.order ≠ st.next_expected → worker_step behOk st = (st, [])) ∧
    (∀ st : TransPipe, wfPipe st →
      ∀ t2 ∈ (worker_step behOk st).1.queue,
        t2.order ≠ (worker_step behOk st).1.next_expected)) :=
  ⟨by decide, by decide,
    translation_release_ordered behOk sampleSt sampleActs (by decide) (by decide)⟩

/-! ## Claim C3: a failed translation does not stall the stream -/

/-- C3: when the expected task's translate call fails (raises or returns
no text), the worker still emits a terminal `translation_update` for that
order carrying the `translation_failed` error marker, advances the
expected cursor past the failed order, and the terminal events of the
iteration together with any continuation are still released with
consecutive ascending orders — a single failure never stalls the
translation stream. -/
theorem translation_failure_non_stall (beh : Nat → CallBeh) (st : TransPipe) (t : Task)
    (acts : List PipeAct) (hwf : wfPipe st) (ha : wfActs acts)
    (hm : qMin st.queue = some t) (ho : t.order = st.next_expected)
    (hfail : (beh t.order).result = Option.none) :
    (∃ txt, TEvent.failed t.order txt ∈ (worker_step beh st).2) ∧
    st.next_expected + 1 ≤ (worker_step beh st).1.next_expected ∧
    terminalOrders ((worker_step beh st).2 ++ (pipe_run beh (worker_step beh st).1 acts).2)
      = List.range' st.next_expected
          ((pipe_run beh (worker_step beh st).1 acts).1.next_expected
            - st.next_expected) := by
  have hstep := worker_step_spec beh st hwf
  have htq := qMin_mem st.queue t hm
  have hwq := hwf.1 t htq
  have hrec := pipe_run_spec beh acts (worker_step beh st).1 hstep.1 ha
  refine ⟨?_, ?_, ?_⟩
  · obtain ⟨txt, hmem⟩ :=
      perform_failed_mem t.order t.text t.lang (beh t.order) hwq.2.2.1 hwq.2.2.2 hfail
    refine ⟨txt, ?_⟩
    simp only [worker_step, hm, if_pos ho]
    exact List.mem_append_left _ hmem
  · have h4 := hstep.2.2.2.1
    have h2 := hstep.2.1
    by_cases he : (worker_step beh st).1.next_expected = st.next_expected
    · exfalso
      rw [he] at h4
      simp only [Nat.sub_self, List.range'] at h4
      have hto : terminalOrders (worker_step beh st).2 ≠ [] := by
        simp only [worker_step, hm, if_pos ho, terminalOrders_append,
          perform_terminalOrders t.order t.text t.lang (beh t.order) hwq.2.2.1 hwq.2.2.2]
        simp
      exact hto h4
    · omega
  · rw [terminalOrders_append, hstep.2.2.2.1, hrec.2.2]
    obtain ⟨m, hm2⟩ : ∃ m, (worker_step beh st).1.next_expected = st.next_expected + m :=
      ⟨(worker_step beh st).1.next_expected - st.next_expected, by
        have := hstep.2.1
        omega⟩
    obtain ⟨k, hk⟩ : ∃ k, (pipe_run beh (worker_step beh st).1 acts).1.next_expected
        = (worker_step beh st).1.next_expected + k :=
      ⟨(pipe_run beh (worker_step beh st).1 acts).1.next_expected
          - (worker_step beh st).1.next_expected, by
        have := hrec.2.1
        omega⟩
    rw [hk, hm2]
    have h1 : st.next_expected + m - st.next_expected = m := by omega
    have h2 : st.next_expected + m + k - st.next_expected = m + k := by omega
    have h3 := List.range'_append st.next_expected m k 1
    simp only [one_mul] at h3
    have h4 : st.next_expected + m + k - (st.next_expected + m) = k := by omega
    rw [h1, h2, h4, Nat.add_comm m k, ← h3]

/-- Witness for C3: order 1 fails, order 2 succeeds and is still
released. -/
theorem translation_failure_non_stall_witness :
    wfPipe sampleStOrd ∧ wfActs [PipeAct.step] ∧
    qMin sampleStOrd.queue = some taskA ∧ taskA.order = sampleStOrd.next_expected ∧
    (behFail1 taskA.order).result = Option.none ∧
    ((∃ txt, TEvent.failed taskA.order txt ∈ (worker_step behFail1 sampleStOrd).2) ∧
      sampleStOrd.next_expected + 1 ≤ (worker_step behFail1 sampleStOrd).1.next_expected ∧
      terminalOrders ((worker_step behFail1 sampleStOrd).2
          ++ (pipe_run behFail1 (worker_step behFail1 sampleStOrd).1 [PipeAct.step]).2)
        = List.range' sampleStOrd.next_expected
            ((pipe_run behFail1 (worker_step behFail1 sampleStOrd).1
              [PipeAct.step]).1.next_expected - sampleStOrd.next_expected)) :=
  ⟨by decide, by decide, by decide, by decide, by decide,
    translation_failure_non_stall behFail1 sampleStOrd taskA [PipeAct.step]
      (by decide) (by decide) (by decide) (by decide) (by decide)⟩

/-! ## Claim C9: `_sanitize_utf8_text` is total and discards surrogates -/

/-- C9: for every input value `_sanitize_utf8_text` returns a string (the
model is a total function into code-point lists, mirroring that neither
`encode(..., 'ignore')` nor `decode(..., 'ignore')` can raise): a `str`
input maps to its text with the unpaired surrogate code units — the only
code units of a well-formed Python string that UTF-8 cannot encode —
discarded, and any non-`str` input maps to the empty string. -/
theorem sanitize_utf8_total_and_discards (s : List Nat)
    (hwf : ∀ c ∈ s, c < 0x110000) :
    sanitize_utf8_text (PyVal.str s) = s.filter (fun c => !(isSurrogate c)) ∧
    (∀ v : PyVal, (∀ t, v ≠ PyVal.str t) → sanitize_utf8_text v = []) := by
  refine ⟨utf8Decode_utf8Encode s hwf, ?_⟩
  intro v hv
  cases v with
  | str t => exact absurd rfl (hv t)
  | pyNone => rfl
  | other => rfl

/-- Witness for C9 at the string "H\ud800e😀". -/
theorem sanitize_utf8_total_and_discards_witness :
    (∀ c ∈ [72, 0xD800, 101, 0x1F600], c < 0x110000) ∧
    (sanitize_utf8_text (PyVal.str [72, 0xD800, 101, 0x1F600])
        = [72, 0xD800, 101, 0x1F600].filter (fun c => !(isSurrogate c)) ∧
      (∀ v : PyVal, (∀ t, v ≠ PyVal.str t) → sanitize_utf8_text v = [])) :=
  ⟨by decide, sanitize_utf8_total_and_discards [72, 0xD800, 101, 0x1F600] (by decide)⟩

/-! ## Claim C8: final transcription text selection -/

/-- C8: with fragments "He" then "llo" reported by the streaming callback,
a returned full text "Hello world" is what the final
`transcription_update` carries (the adapter's full text overrides the
fragment aggregate); with the same fragments and no usable full text
(`None`, or a whitespace-only string), the final update carries the
arrival-order concatenation "Hello". -/
theorem final_text_selection :
    released_final_text [PyVal.str [72, 101], PyVal.str [108, 108, 111]]
        (PyVal.str [72, 101, 108, 108, 111, 32, 119, 111, 114, 108, 100])
      = some [72, 101, 108, 108, 111, 32, 119, 111, 114, 108, 100] ∧
    released_final_text [PyVal.str [72, 101], PyVal.str [108, 108, 111]] PyVal.pyNone
      = some [72, 101, 108, 108, 111] ∧
    released_final_text [PyVal.str [72, 101], PyVal.str [108, 108, 111]]
        (PyVal.str [32, 32])
      = some [72, 101, 108, 108, 111] := by decide

/-! ## Claim C10: blank target language consumes no translation order -/

/-- C10: calling `queue_translation` with a `None`, empty, or
whitespace-only `target_language` returns `(False, 0)` and leaves the
whole pipeline state — `translation_counter` included — unchanged, so no
order slot is consumed and no sequencing gap can arise from such a
call. -/
theorem queue_translation_rejects_blank_language (st : TransPipe) (rid : Nat)
    (text : List Nat) (lang : Option (List Nat))
    (h : lang = Option.none ∨ ∃ l, lang = some l ∧ ∀ c ∈ l, isPySpace c = true) :
    queue_translation st rid text lang = (st, false, 0) := by
  rcases h with h | ⟨l, rfl, hl⟩
  · rw [h]
    rfl
  · have hstrip : pyStrip l = [] := by
      have hdrop : l.dropWhile isPySpace = [] := List.dropWhile_eq_nil_iff.mpr fun x hx => hl x hx
      simp [pyStrip, hdrop]
    simp [queue_translation, hstrip]

/-- Witness for C10 at a whitespace-only language string. -/
theorem queue_translation_rejects_blank_language_witness :
    ((some [32, 9] : Option (List Nat)) = Option.none ∨
      ∃ l, (some [32, 9] : Option (List Nat)) = some l ∧ ∀ c ∈ l, isPySpace c = true) ∧
    queue_translation { counter := 5, next_expected := 2, queue := [] } 7 [104]
        (some [32, 9])
      = ({ counter := 5, next_expected := 2, queue := [] }, false, 0) :=
  ⟨Or.inr ⟨[32, 9], rfl, by decide⟩,
    queue_translation_rejects_blank_language _ 7 [104] (some [32, 9])
      (Or.inr ⟨[32, 9], rfl, by decide⟩)⟩

/-! ## Claim C7: what the stop-time flush actually covers -/

/-- C7 counterexample: after a single below-threshold block while Idle the
session has 4410 frames accumulated in the pre-roll buffer, yet stopping
produces no segment — contrary to the claim that pre-roll-only frames
buffered while Idle are flushed as a final segment on stop. -/
theorem stop_discards_idle_pre_roll :
    (feed initRec [silentChunk]).vad.pre_roll_frames = 4410 ∧
    stop_recording_segment (feed initRec [silentChunk]) = Option.none := by decide

/-- C7 as amended: on stop, exactly the segment-accumulator contents
(`audio_data`) are flushed as one final segment — irrespective of the
silence counters, the active flag, the split flag, and the pre-roll
buffer, so an Active run is flushed regardless of silence state — and no
segment is produced exactly when the accumulator is empty.  Pre-roll-only
frames buffered while Idle are discarded, not flushed. -/
theorem stop_flushes_exactly_accumulator (ad : List Chunk) (sf sc : Nat)
    (sr sa nsr : Bool) (prc : List Chunk) (prf : Nat)
    (segs : List (List Chunk)) (idx : Nat) :
    stop_recording_segment
        { vad := { audio_data := ad, segment_frames := sf, silence_frames_contig := sc,
                   split_requested := sr, segment_active := sa,
                   new_segment_requested := nsr,
                   pre_roll_chunks := prc, pre_roll_frames := prf },
          segments := segs, segment_index := idx }
      = if ad = [] then Option.none else some ad := by
  by_cases h : ad = [] <;>
    simp [stop_recording_segment, save_audio_file, process_segment_chunks, h]

/-! ## Claim C4: the P4 segmentation scenario -/

set_option maxRecDepth 200000 in
/-- C4 counterexample: on the 2 s silence / 3 s tone / 1.5 s silence
input in 0.1 s blocks, the single finalized segment holds 220500 frames,
not the claimed `preRollSeconds` of pre-roll (44100) plus the 3 s tone
(132300) plus the full 1.5 s trailing silence (66150) = 242550: the
segment is cut as soon as contiguous silence reaches
`MIN_SILENCE_SEC_FOR_SPLIT`, so only 1.0 s of trailing silence is
included. -/
theorem segmentation_p4_counterexample :
    (feed initRec c4Input).segments.map sumLen = [220500] ∧
    220500 ≠ maxPre + 30 * 4410 + 15 * 4410 := by decide

set_option maxRecDepth 200000 in
/-- C4 as amended: the scenario finalizes exactly one segment, finalizes
none during the tone, and the segment's frame count is the capped
pre-roll content at onset (`maxPre` frames, in which the onset block
displaced the oldest silence block and is then appended once more by the
in-segment branch) plus the 3 s tone plus exactly
`int(MIN_SILENCE_SEC_FOR_SPLIT * SAMPLE_RATE)` frames of trailing
silence — 220500 frames; the remaining 0.5 s of silence stays in the
next pre-roll. -/
theorem segmentation_p4_amended :
    (feed initRec (List.replicate 20 silentChunk ++ List.replicate 30 toneChunk)).segments
      = [] ∧
    (feed initRec c4Input).segments.map sumLen = [maxPre + 30 * 4410 + splitFrames] ∧
    (feed initRec c4Input).vad.pre_roll_frames = 5 * 4410 := by decide

/-! ## Lemmas: transcription-thread invariant -/

theorem contribM_cons (f : SegThread → Multiset Nat) (th : SegThread) (l : List SegThread) :
    contribM f (th :: l) = f th + contribM f l := by
  simp [contribM]

theorem contribM_set (f : SegThread → Multiset Nat) (l : List SegThread) :
    ∀ (i : Nat) (old upd : SegThread), l.get? i = some old →
    contribM f (l.set i upd) + f old = contribM f l + f upd := by
  induction l with
  | nil =>
    intro i old upd h
    cases h
  | cons hd tl ih =>
    intro i old upd h
    match i with
    | 0 =>
      injection h with h
      subst h
      simp only [List.set, contribM_cons]
      simp [add_comm, add_left_comm, add_assoc]
    | i + 1 =>
      simp only [List.get?_cons_succ] at h
      simp only [List.set, contribM_cons]
      rw [add_assoc, ih i old upd h, ← add_assoc]

theorem contribM_zero (f : SegThread → Multiset Nat) (l : List SegThread)
    (h : ∀ th ∈ l, f th = 0) : contribM f l = 0 := by
  induction l with
  | nil => rfl
  | cons hd tl ih =>
    rw [contribM_cons, h hd (List.mem_cons_self hd tl),
      ih fun th hth => h th (List.mem_cons_of_mem hd hth), add_zero]

theorem contribM_congr (f g : SegThread → Multiset Nat) (l : List SegThread)
    (h : ∀ th ∈ l, f th = g th) : contribM f l = contribM g l := by
  induction l with
  | nil => rfl
  | cons hd tl ih =>
    rw [contribM_cons, contribM_cons, h hd (List.mem_cons_self hd tl),
      ih fun th hth => h th (List.mem_cons_of_mem hd hth)]

theorem contribM_ord (l : List SegThread) :
    contribM (fun th => ({th.ord} : Multiset Nat)) l
      = ((l.map SegThread.ord : List Nat) : Multiset Nat) := by
  induction l with
  | nil => rfl
  | cons hd tl ih =>
    rw [contribM_cons, ih]
    simp [Multiset.singleton_add]

theorem coe_append_singleton (l : List Nat) (x : Nat) :
    ((l ++ [x] : List Nat) : Multiset Nat) = ((l : List Nat) : Multiset Nat) + {x} := rfl

theorem placeholderOrders_append (e1 e2 : List TrEvent) :
    placeholderOrders (e1 ++ e2) = placeholderOrders e1 ++ placeholderOrders e2 := by
  simp [placeholderOrders]

theorem finalOrders_append (e1 e2 : List TrEvent) :
    finalOrders (e1 ++ e2) = finalOrders e1 ++ finalOrders e2 := by
  simp [finalOrders]

theorem sys_step_good (n : Nat) (st : TranscribeSys) (evs : List TrEvent) (tid : Nat)
    (h : GoodSys n st evs) :
    GoodSys n (sys_step st tid).1 (evs ++ (sys_step st tid).2) := by
  obtain ⟨hlen, hstart, hph, hfin⟩ := h
  unfold sys_step
  match hget : st.threads.get? tid with
  | Option.none =>
    exact ⟨hlen, hstart, by simpa using hph, by simpa using hfin⟩
  | some th =>
    by_cases h0 : th.pc = 0
    · simp only [if_pos h0]
      have hset := contribM_set startedOrd st.threads tid th
        { th with pc := 1, ord := st.counter + 1 } hget
      have hsetd := contribM_set doneOrd st.threads tid th
        { th with pc := 1, ord := st.counter + 1 } hget
      have hold : startedOrd th = 0 := by simp [startedOrd, h0]
      have hupd : startedOrd { th with pc := 1, ord := st.counter + 1 }
          = {st.counter + 1} := by
        simp [startedOrd]
      have holdd : doneOrd th = 0 := by simp [doneOrd, h0]
      have hupdd : doneOrd { th with pc := 1, ord := st.counter + 1 } = 0 := by
        simp [doneOrd]
      have hconcat : List.range' 1 (st.counter + 1)
          = List.range' 1 st.counter ++ [st.counter + 1] := by
        simp [List.range'_concat, Nat.add_comm]
      refine ⟨by simpa using hlen, ?_, ?_, ?_⟩
      · rw [hold, add_zero, hupd] at hset
        rw [hset, hstart, hconcat, coe_append_singleton]
      · rw [placeholderOrders_append, hph, hconcat]
        rfl
      · have hph0 : finalOrders [TrEvent.placeholder (st.counter + 1)] = [] := rfl
        rw [finalOrders_append, hph0, List.append_nil, hfin]
        rw [holdd, add_zero, hupdd, add_zero] at hsetd
        exact hsetd.symm
    · by_cases h1 : th.pc = 1
      · simp only [if_neg h0, if_pos h1]
        have hset := contribM_set startedOrd st.threads tid th { th with pc := 2 } hget
        have hsetd := contribM_set doneOrd st.threads tid th { th with pc := 2 } hget
        have hold : startedOrd th = {th.ord} := by simp [startedOrd, h1]
        have hupd : startedOrd { th with pc := 2 } = {th.ord} := by simp [startedOrd]
        have holdd : doneOrd th = 0 := by simp [doneOrd, h1]
        have hstartgoal : contribM startedOrd (st.threads.set tid { th with pc := 2 })
            = ((List.range' 1 st.counter : List Nat) : Multiset Nat) := by
          rw [hold, hupd] at hset
          have hcancel := add_right_cancel hset
          rw [hcancel, hstart]
        by_cases hok : th.ok = true
        · have hupdd : doneOrd { th with pc := 2 } = {th.ord} := by simp [doneOrd, hok]
          simp only [if_pos hok]
          refine ⟨by simpa using hlen, hstartgoal, ?_, ?_⟩
          · have hph1 : placeholderOrders [TrEvent.finalUpd th.ord] = [] := rfl
            rw [placeholderOrders_append, hph1, List.append_nil, hph]
          · have hfin1 : finalOrders [TrEvent.finalUpd th.ord] = [th.ord] := rfl
            rw [finalOrders_append, hfin1, coe_append_singleton, hfin]
            rw [holdd, add_zero, hupdd] at hsetd
            exact hsetd.symm
        · have hupdd : doneOrd { th with pc := 2 } = 0 := by simp [doneOrd, hok]
          simp only [if_neg hok]
          refine ⟨by simpa using hlen, hstartgoal, by simpa using hph, ?_⟩
          rw [List.append_nil, hfin]
          rw [holdd, add_zero, hupdd, add_zero] at hsetd
          exact hsetd.symm
      · simp only [if_neg h0, if_neg h1]
        exact ⟨hlen, hstart, by simpa using hph, by simpa using hfin⟩

theorem sys_run_good (n : Nat) (sched : List Nat) : ∀ (st : TranscribeSys) (evs : List TrEvent),
    GoodSys n st evs → GoodSys n (sys_run st sched).1 (evs ++ (sys_run st sched).2) := by
  induction sched with
  | nil =>
    intro st evs h
    simpa [sys_run] using h
  | cons tid rest ih =>
    intro st evs h
    simp only [sys_run]
    have h2 := ih (sys_step st tid).1 (evs ++ (sys_step st tid).2) (sys_step_good n st evs tid h)
    simpa [List.append_assoc] using h2

theorem contribM_okOrd (l : List SegThread) :
    contribM okOrd l
      = (((l.filter fun th => th.ok).map SegThread.ord : List Nat) : Multiset Nat) := by
  induction l with
  | nil => rfl
  | cons hd tl ih =>
    rw [contribM_cons, ih]
    by_cases h : hd.ok = true
    · rw [okOrd, if_pos h, List.filter_cons_of_pos h]
      simp [Multiset.singleton_add]
    · rw [okOrd, if_neg h, List.filter_cons_of_neg h, zero_add]

theorem initSys_good (oks : List Bool) : GoodSys oks.length (initSys oks) [] := by
  refine ⟨by simp [initSys], ?_, rfl, ?_⟩
  · rw [contribM_zero startedOrd _ ?_]
    · rfl
    · intro th hth
      obtain ⟨b, _, rfl⟩ := List.mem_map.mp hth
      rfl
  · rw [contribM_zero doneOrd _ ?_]
    · rfl
    · intro th hth
      obtain ⟨b, _, rfl⟩ := List.mem_map.mp hth
      simp [doneOrd]

/-! ## Claim C1: transcription final events are not sequenced -/

/-- C1 counterexample: two segments whose transcription calls both
succeed are assigned orders 1 and 2, but when the second call completes
first the final `transcription_update` events are emitted as orders
`[2, 1]` — there is no sequencer on the transcription stream, so the
claimed ascending emission `1, 2` fails for this completion order. -/
theorem transcription_finals_counterexample :
    finalOrders (sys_run (initSys [true, true]) [0, 1, 1, 0]).2 = [2, 1] ∧
    ([2, 1] : List Nat) ≠ [1, 2] := by decide

/-- C1 as amended: for `N` finalized segments with any per-segment call
outcomes and every interleaving in which all transcription calls
complete, the assigned orders are exactly `1..N` with no gaps and no
repeats — the placeholder events carry them in ascending assignment
order — while the terminal `transcription_update` events carry exactly
the orders of the segments whose calls produced usable text, as a
permutation determined by the completion order of the concurrent calls,
not necessarily ascending: the service neither sequences transcription
finals (it tags them for the consumer to place) nor emits any terminal
event for a segment whose transcription came back `None`/empty — that
order is simply absent from the terminal stream. -/
theorem transcription_finals_amended (oks : List Bool) (sched : List Nat)
    (hdone : ∀ th ∈ (sys_run (initSys oks) sched).1.threads, th.pc = 2) :
    (finalOrders (sys_run (initSys oks) sched).2).Perm
      (((sys_run (initSys oks) sched).1.threads.filter fun th => th.ok).map
        SegThread.ord) ∧
    placeholderOrders (sys_run (initSys oks) sched).2
      = List.range' 1 (sys_run (initSys oks) sched).1.counter ∧
    ((sys_run (initSys oks) sched).1.threads.map SegThread.ord).Perm
      (List.range' 1 oks.length) := by
  have hg := sys_run_good oks.length sched (initSys oks) [] (initSys_good oks)
  obtain ⟨hlen, hstart, hph, hfin⟩ := hg
  rw [List.nil_append] at hph hfin
  have hds : contribM doneOrd (sys_run (initSys oks) sched).1.threads
      = contribM okOrd (sys_run (initSys oks) sched).1.threads :=
    contribM_congr _ _ _ fun th hth => by simp [doneOrd, okOrd, hdone th hth]
  have hss : contribM startedOrd (sys_run (initSys oks) sched).1.threads
      = contribM (fun th => ({th.ord} : Multiset Nat))
          (sys_run (initSys oks) sched).1.threads :=
    contribM_congr _ _ _ fun th hth => by simp [startedOrd, hdone th hth]
  have hmap := contribM_ord (sys_run (initSys oks) sched).1.threads
  have hcard : (sys_run (initSys oks) sched).1.counter = oks.length := by
    have h1 := congrArg Multiset.card (hss.symm.trans hstart)
    rw [hmap] at h1
    simp only [Multiset.coe_card, List.length_map, List.length_range'] at h1
    omega
  refine ⟨?_, hph, ?_⟩
  · have hco : ((finalOrders (sys_run (initSys oks) sched).2 : List Nat) : Multiset Nat)
        = ((((sys_run (initSys oks) sched).1.threads.filter fun th => th.ok).map
            SegThread.ord : List Nat) : Multiset Nat) := by
      rw [hfin, hds, contribM_okOrd]
    exact Multiset.coe_eq_coe.mp hco
  · have hco2 : (((sys_run (initSys oks) sched).1.threads.map SegThread.ord
          : List Nat) : Multiset Nat)
        = ((List.range' 1 oks.length : List Nat) : Multiset Nat) := by
      rw [← hmap, ← hss, hstart, hcard]
    exact Multiset.coe_eq_coe.mp hco2

/-- Witness for the amended C1: two segments, the first call succeeds
and the second comes back empty, so only order 1 appears among the
terminal events while both orders were assigned. -/
theorem transcription_finals_amended_witness :
    (∀ th ∈ (sys_run (initSys [true, false]) [0, 1, 0, 1]).1.threads, th.pc = 2) ∧
    ((finalOrders (sys_run (initSys [true, false]) [0, 1, 0, 1]).2).Perm
      (((sys_run (initSys [true, false]) [0, 1, 0, 1]).1.threads.filter
        fun th => th.ok).map SegThread.ord) ∧
    placeholderOrders (sys_run (initSys [true, false]) [0, 1, 0, 1]).2
      = List.range' 1 (sys_run (initSys [true, false]) [0, 1, 0, 1]).1.counter ∧
    ((sys_run (initSys [true, false]) [0, 1, 0, 1]).1.threads.map SegThread.ord).Perm
      (List.range' 1 ([true, false] : List Bool).length)) :=
  ⟨by decide, transcription_finals_amended [true, false] [0, 1, 0, 1] (by decide)⟩

end VoiceTT
